import Mathlib

/- Verification of the numeric-normalization and reconciliation logic of the
   bill-extraction service in app.py (src/new.py).

   Modelling choices:
   - Python float values are modelled by `PyFloat` (a rational, or one of the
     IEEE specials inf / -inf / nan); arithmetic on the rational part is exact.
   - JSON scalar values reaching the helpers are modelled by `PyVal`
     (null, string, integer); `pyStr` models Python's str() on them.
   - `pyFloatStr` models Python's float(string) parser: optional sign,
     inf / infinity / nan keywords (any case), digits with optional single
     underscores between them, optional fraction and exponent, surrounding
     whitespace stripped.  Digits are modelled as ASCII digits.
   - The regex search re.search("\d+(\.\d+)?", s) is modelled by `firstToken`:
     the leftmost maximal ASCII digit run, extended by '.' plus a digit run
     when one directly follows.
   - External collaborators (HTTP download, rasterizer, OCR, LLM) are opaque:
     the per-page structured-extraction outcome enters `process_document` as
     an `Option (List Row)` (`none` models a failed extraction, the caught
     exception path of groq_extract_table), and the route handler
     `extract_bill_data` takes the downloader and the document processor as
     function parameters. -/

namespace Bill

/-- ASCII digit test: model of regex \d and of the digits accepted by float(). -/
def isDig (c : Char) : Bool := 48 ≤ c.toNat && c.toNat ≤ 57

/-- Numeric value of an ASCII digit. -/
def digVal (c : Char) : Nat := c.toNat - 48

/-- ASCII whitespace, as stripped by str.strip() and by float(). -/
def isWS (c : Char) : Bool := c.toNat == 32 || (9 ≤ c.toNat && c.toNat ≤ 13)

/-- ASCII lower-casing, used for the case-insensitive float() keywords. -/
def asciiLower (c : Char) : Char :=
  if 65 ≤ c.toNat ∧ c.toNat ≤ 90 then Char.ofNat (c.toNat + 32) else c

/-- Model of a Python float value. -/
inductive PyFloat where
  | finite (q : ℚ)
  | inf
  | ninf
  | nan
  deriving DecidableEq, Repr

/-- Python float addition. -/
def PyFloat.add : PyFloat → PyFloat → PyFloat
  | .nan, _ => .nan
  | _, .nan => .nan
  | .inf, .ninf => .nan
  | .ninf, .inf => .nan
  | .inf, _ => .inf
  | _, .inf => .inf
  | .ninf, _ => .ninf
  | _, .ninf => .ninf
  | .finite a, .finite b => .finite (a + b)

/-- Python float multiplication. -/
def PyFloat.mul : PyFloat → PyFloat → PyFloat
  | .nan, _ => .nan
  | _, .nan => .nan
  | .finite a, .inf => if 0 < a then .inf else if a < 0 then .ninf else .nan
  | .finite a, .ninf => if 0 < a then .ninf else if a < 0 then .inf else .nan
  | .inf, .finite b => if 0 < b then .inf else if b < 0 then .ninf else .nan
  | .ninf, .finite b => if 0 < b then .ninf else if b < 0 then .inf else .nan
  | .inf, .inf => .inf
  | .inf, .ninf => .ninf
  | .ninf, .inf => .ninf
  | .ninf, .ninf => .inf
  | .finite a, .finite b => .finite (a * b)

/-- Python truthiness of a float: 0.0 is falsy; infinities and nan are truthy. -/
def PyFloat.truthy : PyFloat → Bool
  | .finite q => q != 0
  | _ => true

/-- Python's `x or d` for an optional float `x`: None and 0.0 fall back to `d`. -/
def pyOr (v : Option PyFloat) (d : PyFloat) : PyFloat :=
  match v with
  | Option.none => d
  | some f => if f.truthy then f else d

/-- Round-half-to-even to an integer, the tie-breaking used by Python round(). -/
def bankRound (x : ℚ) : ℤ :=
  let f := ⌊x⌋
  if x - f < 1 / 2 then f
  else if (1 : ℚ) / 2 < x - f then f + 1
  else if f % 2 = 0 then f else f + 1

/-- Model of Python round(q, 2). -/
def round2 (q : ℚ) : ℚ := (bankRound (q * 100) : ℚ) / 100

/-- round(x, 2) lifted to float values. -/
def PyFloat.round2 : PyFloat → PyFloat
  | .finite q => .finite (Bill.round2 q)
  | x => x

/-- Maximal run of digits allowing single interior underscores (Python numeric
    literals accepted by float()).  Returns (value, digit count, rest). -/
def digitsUAux : List Char → Nat → Nat → Nat × Nat × List Char
  | [], v, n => (v, n, [])
  | [c], v, n =>
    if isDig c then (10 * v + digVal c, n + 1, []) else (v, n, [c])
  | c :: d :: cs, v, n =>
    if isDig c then digitsUAux (d :: cs) (10 * v + digVal c) (n + 1)
    else if c = '_' ∧ n ≠ 0 ∧ isDig d then digitsUAux cs (10 * v + digVal d) (n + 1)
    else (v, n, c :: d :: cs)

/-- Exponent digits (after an optional sign); the whole rest must be consumed. -/
def parseExpNum (r : List Char) (m : ℚ) (neg : Bool) : Option ℚ :=
  let t := digitsUAux r 0 0
  if t.2.1 = 0 ∨ t.2.2 ≠ [] then Option.none
  else some (if neg then m / 10 ^ t.1 else m * 10 ^ t.1)

/-- Exponent part after 'e' / 'E': optional sign, then digits. -/
def parseExpSign (r : List Char) (m : ℚ) : Option ℚ :=
  match r with
  | [] => Option.none
  | c :: r2 =>
    if c = '+' then parseExpNum r2 m false
    else if c = '-' then parseExpNum r2 m true
    else parseExpNum (c :: r2) m false

/-- After the mantissa: end of input, or an exponent marker. -/
def parseExpPart (r : List Char) (m : ℚ) : Option ℚ :=
  match r with
  | [] => some m
  | c :: r2 =>
    if c = 'e' ∨ c = 'E' then parseExpSign r2 m else Option.none

/-- After the integer part (value iv, ic digits): optional fraction, exponent. -/
def parseAfterInt (r : List Char) (iv : Nat) (ic : Nat) : Option ℚ :=
  match r with
  | [] => if ic = 0 then Option.none else some (iv : ℚ)
  | c :: r2 =>
    if c = '.' then
      let t := digitsUAux r2 0 0
      if ic + t.2.1 = 0 then Option.none
      else parseExpPart t.2.2 ((iv : ℚ) + (t.1 : ℚ) / 10 ^ t.2.1)
    else if ic = 0 then Option.none
    else parseExpPart (c :: r2) (iv : ℚ)

/-- Unsigned numeric literal accepted by float(). -/
def parseNum (l : List Char) : Option ℚ :=
  let t := digitsUAux l 0 0
  parseAfterInt t.2.2 t.1 t.2.1

def infKw : List Char := ['i', 'n', 'f']

def infinityKw : List Char := ['i', 'n', 'f', 'i', 'n', 'i', 't', 'y']

def nanKw : List Char := ['n', 'a', 'n']

/-- Body of float() after the optional sign: keywords or a numeric literal. -/
def pyFloatBody (neg : Bool) (r : List Char) : Option PyFloat :=
  if r.map asciiLower = infKw ∨ r.map asciiLower = infinityKw then
    some (if neg then .ninf else .inf)
  else if r.map asciiLower = nanKw then some .nan
  else (parseNum r).map fun q => .finite (if neg then -q else q)

/-- float() on a whitespace-stripped character list. -/
def pyFloatCore (l : List Char) : Option PyFloat :=
  match l with
  | [] => Option.none
  | c :: r =>
    if c = '+' then pyFloatBody false r
    else if c = '-' then pyFloatBody true r
    else pyFloatBody false (c :: r)

/-- Strip leading and trailing whitespace. -/
def stripWS (l : List Char) : List Char :=
  ((l.dropWhile isWS).reverse.dropWhile isWS).reverse

/-- Model of Python float(s) on a string: None models a raised ValueError. -/
def pyFloatStr (s : String) : Option PyFloat := pyFloatCore (stripWS s.data)

/-- JSON scalar values reaching the numeric helpers. -/
inductive PyVal where
  | null
  | str (s : String)
  | int (i : Int)
  deriving DecidableEq, Repr

def pyNoneRepr : String := "None"

/-- Model of Python str() on such a value. -/
def pyStr : PyVal → String
  | .null => pyNoneRepr
  | .str s => s
  | .int i => toString i

/-- s.replace(",", ""). -/
def removeCommasStr (s : String) : String :=
  String.mk (s.data.filter (fun c => c ≠ ','))

/-- s.strip(). -/
def stripStr (s : String) : String := String.mk (stripWS s.data)

/-- normalize_number from app.py: None-propagating comma-stripping float(). -/
def normalize_number (v : PyVal) : Option PyFloat :=
  match v with
  | .null => Option.none
  | w => pyFloatStr (stripStr (removeCommasStr (pyStr w)))

/-- The regex token starting at a digit: maximal digit run, extended by '.'
    plus a following digit run when present (the match of \d+(\.\d+)? ). -/
def numTokenAt (l : List Char) : List Char :=
  let ds := l.takeWhile isDig
  match l.dropWhile isDig with
  | c2 :: r2 =>
    if c2 = '.' then
      let fs := r2.takeWhile isDig
      if fs = [] then ds else ds ++ '.' :: fs
    else ds
  | [] => ds

/-- Leftmost match of re.search("\d+(\.\d+)?", ·) on a character list. -/
def firstToken : List Char → Option (List Char)
  | [] => Option.none
  | c :: cs => if isDig c then some (numTokenAt (c :: cs)) else firstToken cs

/-- parse_number from app.py: first numeric token, then normalize_number. -/
def parse_number (v : PyVal) : Option PyFloat :=
  match v with
  | .null => Option.none
  | w =>
    match firstToken (pyStr w).data with
    | some t => normalize_number (.str (String.mk t))
    | Option.none => Option.none

/-- Value of a digit run. -/
def digitsVal (l : List Char) : Nat := l.foldl (fun a c => 10 * a + digVal c) 0

/-- Numeric value of a digits[.digits] token. -/
def tokenVal (t : List Char) : ℚ :=
  (digitsVal (t.takeWhile isDig) : ℚ) +
    match t.dropWhile isDig with
    | _ :: fs => (digitsVal fs : ℚ) / 10 ^ fs.length
    | [] => 0

/-- A raw extracted row, as decoded from the LLM JSON. -/
structure Row where
  item_name : PyVal
  item_quantity : PyVal
  item_rate : PyVal
  item_amount : PyVal
  deriving DecidableEq, Repr

/-- A finalized line item. -/
structure Item where
  item_name : PyVal
  item_quantity : Option PyFloat
  item_rate : Option PyFloat
  item_amount : Option PyFloat
  deriving DecidableEq, Repr

structure PageRes where
  page_no : Nat
  bill_items : List Item
  deriving DecidableEq, Repr

structure DocData where
  pagewise_line_items : List PageRes
  total_item_count : Nat
  reconciled_amount : PyFloat
  deriving DecidableEq, Repr

structure DocResult where
  is_success : Bool
  data : DocData
  deriving DecidableEq, Repr

/-- Per-row normalization and missing-amount fill-in of process_document. -/
def processRow (r : Row) : Item :=
  let qty := parse_number r.item_quantity
  let rate := parse_number r.item_rate
  let amt0 := parse_number r.item_amount
  let amt :=
    match amt0, qty, rate with
    | Option.none, some q, some ra => some (q.mul ra)
    | a, _, _ => a
  ⟨r.item_name, qty, rate, amt⟩

/-- The enumerate(pages, start=1) loop building the per-page results;
    a failed structured extraction (none) contributes an empty row list. -/
def buildPages : Nat → List (Option (List Row)) → List PageRes
  | _, [] => []
  | idx, p :: ps => ⟨idx, (p.getD []).map processRow⟩ :: buildPages (idx + 1) ps

/-- One item's contribution to the document total:
    qty = item_quantity or 1; rate = item_rate or 0;
    amt = item_amount, recomputed as qty * rate when still None. -/
def itemContribution (it : Item) : PyFloat :=
  let qty := pyOr it.item_quantity (.finite 1)
  let rate := pyOr it.item_rate (.finite 0)
  match it.item_amount with
  | Option.none => qty.mul rate
  | some a => a

/-- process_document from app.py, over the per-page extraction outcomes. -/
def process_document (pages : List (Option (List Row))) : DocResult :=
  let final_pages := buildPages 1 pages
  let all_items := (final_pages.map PageRes.bill_items).flatten
  let total : PyFloat :=
    all_items.foldl (fun acc it => PyFloat.add acc (itemContribution it)) (PyFloat.finite 0)
  ⟨true, ⟨final_pages, all_items.length, total.round2⟩⟩

/-- Projection of a float to its rational part (0 on the specials). -/
def toQ : PyFloat → ℚ
  | .finite q => q
  | _ => 0

/-- The specification's effective quantity: the quantity when present, else 1. -/
def specEffQty (it : Item) : ℚ :=
  match it.item_quantity with
  | some f => toQ f
  | Option.none => 1

/-- The specification's effective rate: the rate when present, else 0. -/
def specEffRate (it : Item) : ℚ :=
  match it.item_rate with
  | some f => toQ f
  | Option.none => 0

/-- The specification's effective amount of an item. -/
def specEffAmount (it : Item) : ℚ :=
  match it.item_amount with
  | some f => toQ f
  | Option.none => specEffQty it * specEffRate it

/-- All emitted items of a processed document, in page order. -/
def docItems (pages : List (Option (List Row))) : List Item :=
  ((process_document pages).data.pagewise_line_items.map PageRes.bill_items).flatten

/-- An entirely matched occurrence of the pattern digits[.digits]. -/
def isNumToken (m : List Char) : Bool :=
  let ds := m.takeWhile isDig
  decide (ds ≠ []) &&
    match m.dropWhile isDig with
    | [] => true
    | c :: fs => c = '.' && decide (fs ≠ []) && fs.all isDig

/-- Optional float that is absent or a nonnegative finite value. -/
def nonnegOpt (o : Option PyFloat) : Prop :=
  o = Option.none ∨ ∃ q, o = some (.finite q) ∧ 0 ≤ q

/-- Invariant of every item emitted by processRow. -/
def goodItem (it : Item) : Prop :=
  nonnegOpt it.item_quantity ∧ nonnegOpt it.item_rate ∧ nonnegOpt it.item_amount ∧
    (it.item_amount = Option.none →
      it.item_quantity = Option.none ∨ it.item_rate = Option.none)

/-- HTTP response body of the route. -/
inductive HttpBody where
  | errBody (is_success : Bool) (error : String)
  | docBody (d : DocResult)
  deriving DecidableEq, Repr

def docKey : String := "document"

def msgMissingDoc : String := "Missing 'document'"

def msgDownloadFailed : String := "Download failed"

def emptyStr : String := ""

/-- Membership-ordered dictionary lookup. -/
def lookupKey (k : String) : List (String × PyVal) → Option PyVal
  | [] => Option.none
  | (k2, v) :: rest => if k2 = k then some v else lookupKey k rest

/-- url.split("?")[0]. -/
def splitQuery (s : String) : String :=
  String.mk (s.data.takeWhile (fun c => c ≠ '?'))

/-- The part after the last '/'. -/
def lastComponent (l : List Char) : List Char :=
  (l.reverse.takeWhile (fun c => c ≠ '/')).reverse

/-- os.path.splitext(p)[1]: the extension of the last path component;
    dots leading the component do not start an extension. -/
def splitextExt (p : String) : String :=
  let base := lastComponent p.data
  let afterDot := base.reverse.takeWhile (fun c => c ≠ '.')
  if afterDot.length = base.length then emptyStr
  else
    let beforeDot := base.take (base.length - afterDot.length - 1)
    if beforeDot.all (fun c => c = '.') then emptyStr
    else String.mk ('.' :: afterDot.reverse)

/-- File-type hint: extension of the query-stripped URL, defaulting to .png. -/
def defaultExt : String := ".png"

def extOf (url : String) : String :=
  let e := splitextExt (splitQuery url)
  if e = emptyStr then defaultExt else e

/-- The POST /extract-bill-data handler.  The request body is the decoded
    JSON object (None when absent); dl models requests.get + raise_for_status
    (error covers network errors, timeouts and non-success statuses); proc
    models the downstream pipeline on the downloaded bytes and extension. -/
def extract_bill_data {β : Type} (body : Option (List (String × PyVal)))
    (dl : PyVal → Except Unit β) (proc : β → String → DocResult) : Nat × HttpBody :=
  match body with
  | Option.none => (400, .errBody false msgMissingDoc)
  | some b =>
    if b = [] then (400, .errBody false msgMissingDoc)
    else
      match lookupKey docKey b with
      | Option.none => (400, .errBody false msgMissingDoc)
      | some url =>
        match dl url with
        | .error _ => (400, .errBody false msgDownloadFailed)
        | .ok content => (200, .docBody (proc content (extOf (pyStr url))))

/-- Shape of a token produced by firstToken: a nonempty digit run, possibly
    followed by '.' and another nonempty digit run. -/
def goodTok (t : List Char) : Prop :=
  ∃ ds fs, ds ≠ [] ∧ (∀ c ∈ ds, isDig c = true) ∧ (∀ c ∈ fs, isDig c = true) ∧
    (t = ds ∨ (fs ≠ [] ∧ t = ds ++ '.' :: fs))

/- Concrete inputs used in the correctness statements below. -/

def commaQtyStr : String := "Qty: 1,234.50 pcs"

def commaNumStr : String := " 1,234 "

def junkStr : String := "12abc"

def abcStr : String := "abc"

def a1bStr : String := "a1b"

def negStr : String := "-5"

def sevenStr : String := "7"

/-- The request body is falsy or lacks the document key. -/
def missingDocument (body : Option (List (String × PyVal))) : Prop :=
  body = Option.none ∨ body = some [] ∨
    ∃ b, body = some b ∧ lookupKey docKey b = Option.none

/-- The document key is present but downloading it fails. -/
def downloadFails {β : Type} (body : Option (List (String × PyVal)))
    (dl : PyVal → Except Unit β) : Prop :=
  ∃ b url, body = some b ∧ b ≠ [] ∧ lookupKey docKey b = some url ∧
    ∃ e, dl url = Except.error e

/- ------------------------------------------------------------------ -/
/- Helper lemmas.                                                      -/
/- ------------------------------------------------------------------ -/

theorem isDig_bounds {c : Char} (h : isDig c = true) : 48 ≤ c.toNat ∧ c.toNat ≤ 57 := by
  simpa [isDig] using h

theorem char_ne_of_toNat {c d : Char} (h : c.toNat ≠ d.toNat) : c ≠ d :=
  fun e => h (congrArg Char.toNat e)

theorem isDig_ne_plus {c : Char} (h : isDig c = true) : c ≠ '+' := by
  have hb := isDig_bounds h
  have hlit : ('+').toNat = 43 := by decide
  exact char_ne_of_toNat (by omega)

theorem isDig_ne_minus {c : Char} (h : isDig c = true) : c ≠ '-' := by
  have hb := isDig_bounds h
  have hlit : ('-').toNat = 45 := by decide
  exact char_ne_of_toNat (by omega)

theorem isDig_ne_us {c : Char} (h : isDig c = true) : c ≠ '_' := by
  have hb := isDig_bounds h
  have hlit : ('_').toNat = 95 := by decide
  exact char_ne_of_toNat (by omega)

theorem isDig_ne_comma {c : Char} (h : isDig c = true) : c ≠ ',' := by
  have hb := isDig_bounds h
  have hlit : (',').toNat = 44 := by decide
  exact char_ne_of_toNat (by omega)

theorem isDig_ne_dot {c : Char} (h : isDig c = true) : c ≠ '.' := by
  have hb := isDig_bounds h
  have hlit : ('.').toNat = 46 := by decide
  exact char_ne_of_toNat (by omega)

theorem isDig_ne_ilet {c : Char} (h : isDig c = true) : c ≠ 'i' := by
  have hb := isDig_bounds h
  have hlit : ('i').toNat = 105 := by decide
  exact char_ne_of_toNat (by omega)

theorem isDig_ne_nlet {c : Char} (h : isDig c = true) : c ≠ 'n' := by
  have hb := isDig_bounds h
  have hlit : ('n').toNat = 110 := by decide
  exact char_ne_of_toNat (by omega)

theorem isDig_not_ws {c : Char} (h : isDig c = true) : isWS c = false := by
  have hb := isDig_bounds h
  simp only [isWS, Bool.or_eq_false_iff, beq_eq_false_iff_ne, ne_eq,
    Bool.and_eq_false_iff, decide_eq_false_iff_not, not_le]
  omega

theorem dot_not_ws : isWS '.' = false := by decide

theorem asciiLower_digit {c : Char} (h : isDig c = true) : asciiLower c = c := by
  have hb := isDig_bounds h
  unfold asciiLower
  rw [if_neg]
  omega

theorem takeWhile_all {α} {p : α → Bool} :
    ∀ l : List α, (∀ c ∈ l, p c = true) → l.takeWhile p = l := by
  intro l
  induction l with
  | nil => intro _; rfl
  | cons a t ih =>
    intro h
    rw [List.takeWhile_cons_of_pos (h a (List.mem_cons_self a t))]
    rw [ih fun c hc => h c (List.mem_cons_of_mem a hc)]

theorem dropWhile_all {α} {p : α → Bool} :
    ∀ l : List α, (∀ c ∈ l, p c = true) → l.dropWhile p = [] := by
  intro l
  induction l with
  | nil => intro _; rfl
  | cons a t ih =>
    intro h
    rw [List.dropWhile_cons_of_pos (h a (List.mem_cons_self a t))]
    exact ih fun c hc => h c (List.mem_cons_of_mem a hc)

theorem dropWhile_none {α} {p : α → Bool} :
    ∀ l : List α, (∀ c ∈ l, p c = false) → l.dropWhile p = l := by
  intro l
  induction l with
  | nil => intro _; rfl
  | cons a t _ =>
    intro h
    rw [List.dropWhile_cons_of_neg]
    simp [h a (List.mem_cons_self a t)]

theorem takeWhile_app {α} {p : α → Bool} :
    ∀ (ds : List α) (x : α) (r : List α), (∀ c ∈ ds, p c = true) → p x = false →
      (ds ++ x :: r).takeWhile p = ds ∧ (ds ++ x :: r).dropWhile p = x :: r := by
  intro ds
  induction ds with
  | nil =>
    intro x r _ hx
    constructor
    · rw [List.nil_append, List.takeWhile_cons_of_neg]
      simp [hx]
    · rw [List.nil_append, List.dropWhile_cons_of_neg]
      simp [hx]
  | cons a t ih =>
    intro x r h hx
    have ha := h a (List.mem_cons_self a t)
    have ht := ih x r (fun c hc => h c (List.mem_cons_of_mem a hc)) hx
    constructor
    · rw [List.cons_append, List.takeWhile_cons_of_pos ha, ht.1]
    · rw [List.cons_append, List.dropWhile_cons_of_pos ha, ht.2]

theorem stripWS_id {l : List Char} (h : ∀ c ∈ l, isWS c = false) : stripWS l = l := by
  unfold stripWS
  rw [dropWhile_none l h]
  rw [dropWhile_none l.reverse fun c hc => h c (List.mem_reverse.mp hc)]
  exact List.reverse_reverse l

theorem digitsUAux_spec :
    ∀ (ds r : List Char) (v n : Nat),
      (∀ c ∈ ds, isDig c = true) →
      (∀ c cs2, r = c :: cs2 → isDig c = false ∧ c ≠ '_') →
      digitsUAux (ds ++ r) v n =
        (ds.foldl (fun a c => 10 * a + digVal c) v, n + ds.length, r) := by
  intro ds
  induction ds with
  | nil =>
    intro r v n _ hr
    rw [List.nil_append]
    match r with
    | [] => simp [digitsUAux]
    | [c] =>
      have hc := hr c [] rfl
      simp [digitsUAux, hc.1]
    | c :: d :: cs =>
      have hc := hr c (d :: cs) rfl
      simp [digitsUAux, hc.1, hc.2]
  | cons a t ih =>
    intro r v n h hr
    have ha := h a (List.mem_cons_self a t)
    have hrec := ih r (10 * v + digVal a) (n + 1)
      (fun c hc => h c (List.mem_cons_of_mem a hc)) hr
    match hts : t ++ r with
    | [] =>
      obtain ⟨hte1, hte2⟩ := List.append_eq_nil.mp hts
      subst hte1
      subst hte2
      simp [digitsUAux, ha]
    | b :: bs =>
      rw [List.cons_append, hts]
      show digitsUAux (a :: b :: bs) v n = _
      rw [digitsUAux]
      rw [if_pos ha]
      rw [← hts, hrec]
      simp [List.length_cons]
      omega

theorem numTokenAt_good {c : Char} (cs : List Char) (hc : isDig c = true) :
    goodTok (numTokenAt (c :: cs)) := by
  have hds : (c :: cs).takeWhile isDig = c :: cs.takeWhile isDig :=
    List.takeWhile_cons_of_pos hc
  have hdsne : (c :: cs).takeWhile isDig ≠ [] := by
    rw [hds]; exact List.cons_ne_nil c (cs.takeWhile isDig)
  have hdsdig : ∀ x ∈ (c :: cs).takeWhile isDig, isDig x = true :=
    fun x hx => List.mem_takeWhile_imp hx
  cases hdw : (c :: cs).dropWhile isDig with
  | nil =>
    refine ⟨(c :: cs).takeWhile isDig, [], hdsne, hdsdig, by simp, Or.inl ?_⟩
    simp [numTokenAt, hdw]
  | cons c2 r2 =>
    by_cases hc2 : c2 = '.'
    · subst hc2
      by_cases hfs : r2.takeWhile isDig = []
      · refine ⟨(c :: cs).takeWhile isDig, [], hdsne, hdsdig, by simp, Or.inl ?_⟩
        simp [numTokenAt, hdw, hfs]
      · refine ⟨(c :: cs).takeWhile isDig, r2.takeWhile isDig, hdsne, hdsdig,
          fun x hx => List.mem_takeWhile_imp hx, Or.inr ⟨hfs, ?_⟩⟩
        simp [numTokenAt, hdw, hfs]
    · refine ⟨(c :: cs).takeWhile isDig, [], hdsne, hdsdig, by simp, Or.inl ?_⟩
      simp [numTokenAt, hdw, hc2]

theorem firstToken_good :
    ∀ (l t : List Char), firstToken l = some t → goodTok t := by
  intro l
  induction l with
  | nil => intro t h; exact absurd h (by simp [firstToken])
  | cons c cs ih =>
    intro t h
    by_cases hc : isDig c = true
    · rw [firstToken, if_pos hc] at h
      obtain rfl : numTokenAt (c :: cs) = t := Option.some.inj h
      exact numTokenAt_good cs hc
    · rw [firstToken, if_neg hc] at h
      exact ih t h

theorem goodTok_chars {t : List Char} (h : goodTok t) :
    ∀ c ∈ t, isDig c = true ∨ c = '.' := by
  obtain ⟨ds, fs, _, hds, hfs, hcase⟩ := h
  intro c hc
  rcases hcase with rfl | ⟨_, rfl⟩
  · exact Or.inl (hds c hc)
  · rcases List.mem_append.mp hc with h1 | h2
    · exact Or.inl (hds c h1)
    · rcases List.mem_cons.mp h2 with rfl | h3
      · exact Or.inr rfl
      · exact Or.inl (hfs c h3)

theorem goodTok_head {t : List Char} (h : goodTok t) :
    ∃ d rest, t = d :: rest ∧ isDig d = true := by
  obtain ⟨ds, fs, hne, hds, _, hcase⟩ := h
  cases ds with
  | nil => exact absurd rfl hne
  | cons d ds2 =>
    have hdig : isDig d = true := hds d (List.mem_cons_self d ds2)
    rcases hcase with rfl | ⟨_, rfl⟩
    · exact ⟨d, ds2, rfl, hdig⟩
    · exact ⟨d, ds2 ++ '.' :: fs, rfl, hdig⟩

theorem tokenVal_nonneg (t : List Char) : 0 ≤ tokenVal t := by
  unfold tokenVal
  have h1 : (0 : ℚ) ≤ (digitsVal (t.takeWhile isDig) : ℚ) := Nat.cast_nonneg _
  match t.dropWhile isDig with
  | [] => exact le_trans h1 (by simp)
  | c :: fs =>
    have h2 : (0 : ℚ) ≤ (digitsVal fs : ℚ) / 10 ^ fs.length :=
      div_nonneg (Nat.cast_nonneg _) (by positivity)
    exact add_nonneg h1 h2

theorem goodTok_eval {t : List Char} (h : goodTok t) :
    pyFloatCore t = some (.finite (tokenVal t)) := by
  obtain ⟨ds, fs, hne, hds, hfs, hcase⟩ := h
  obtain ⟨d, ds2, hdcons, hddig⟩ :=
    goodTok_head ⟨ds, fs, hne, hds, hfs, hcase⟩
  have hnotcont : ∀ (r : List Char), (r = [] ∨ ∃ r2, r = '.' :: r2) →
      ∀ c cs2, r = c :: cs2 → isDig c = false ∧ c ≠ '_' := by
    intro r hr c cs2 hc
    rcases hr with rfl | ⟨r2, rfl⟩
    · simp at hc
    · injection hc with h1 h2
      subst h1
      exact ⟨by decide, by decide⟩
  -- evaluate pyFloatCore on the token
  rw [hdcons]
  rw [pyFloatCore]
  rw [if_neg (isDig_ne_plus hddig), if_neg (isDig_ne_minus hddig)]
  rw [← hdcons]
  -- the keyword branches do not fire: the first character is a digit
  have hkw : ∀ (kw : List Char), kw.headD 'x' = 'i' ∨ kw.headD 'x' = 'n' →
      t.map asciiLower ≠ kw := by
    intro kw hkwh heq
    rw [hdcons] at heq
    simp only [List.map_cons] at heq
    match kw, heq with
    | k :: kw2, heq2 =>
      have h1 : asciiLower d = k := (List.cons.injEq _ _ _ _ ▸ heq2).1
      rw [asciiLower_digit hddig] at h1
      simp only [List.headD_cons] at hkwh
      rcases hkwh with rfl | rfl
      · exact absurd h1 (isDig_ne_ilet hddig)
      · exact absurd h1 (isDig_ne_nlet hddig)
  rw [pyFloatBody]
  rw [if_neg (by
    push_neg
    exact ⟨hkw infKw (Or.inl rfl), hkw infinityKw (Or.inl rfl)⟩)]
  rw [if_neg (by exact hkw nanKw (Or.inr rfl))]
  -- now the numeric-literal branch; evaluate parseNum on the token shape
  have hdslen : ds.length ≠ 0 := fun hl => hne (List.length_eq_zero.mp hl)
  have hval : parseNum t = some (tokenVal t) := by
    rcases hcase with heq | ⟨hfne, heq⟩
    · -- t = ds
      rw [heq]
      have hspec := digitsUAux_spec ds [] 0 0 hds
        (hnotcont [] (Or.inl rfl))
      rw [List.append_nil] at hspec
      rw [parseNum, hspec]
      show parseAfterInt [] (ds.foldl (fun a c => 10 * a + digVal c) 0) (0 + ds.length) =
        some (tokenVal ds)
      rw [parseAfterInt]
      rw [if_neg (by omega)]
      unfold tokenVal
      rw [takeWhile_all ds hds, dropWhile_all ds hds]
      simp [digitsVal]
    · -- t = ds ++ '.' :: fs
      rw [heq]
      have hdot : isDig '.' = false := by decide
      have hspec := digitsUAux_spec ds ('.' :: fs) 0 0 hds
        (hnotcont ('.' :: fs) (Or.inr ⟨fs, rfl⟩))
      rw [parseNum, hspec]
      show parseAfterInt ('.' :: fs) (ds.foldl (fun a c => 10 * a + digVal c) 0)
        (0 + ds.length) = some (tokenVal (ds ++ '.' :: fs))
      rw [parseAfterInt]
      rw [if_pos rfl]
      have hspec2 := digitsUAux_spec fs [] 0 0 hfs (hnotcont [] (Or.inl rfl))
      rw [List.append_nil] at hspec2
      rw [hspec2]
      rw [if_neg (by omega)]
      show parseExpPart [] _ = _
      rw [parseExpPart]
      unfold tokenVal
      obtain ⟨htw, hdw⟩ := takeWhile_app ds '.' fs hds hdot
      rw [htw, hdw]
      simp [digitsVal]
  rw [hval]
  rfl

theorem stripWS_token {t : List Char} (h : goodTok t) : stripWS t = t := by
  apply stripWS_id
  intro c hc
  rcases goodTok_chars h c hc with hd | rfl
  · exact isDig_not_ws hd
  · exact dot_not_ws

theorem normalize_token {t : List Char} (h : goodTok t) :
    normalize_number (.str (String.mk t)) = some (.finite (tokenVal t)) := by
  have hnc : ∀ c ∈ t, c ≠ ',' := by
    intro c hc
    rcases goodTok_chars h c hc with hd | rfl
    · exact isDig_ne_comma hd
    · decide
  have hfilter : t.filter (fun c => c ≠ ',') = t :=
    List.filter_eq_self.mpr (by simpa using hnc)
  show pyFloatStr (stripStr (removeCommasStr (String.mk t))) = _
  rw [removeCommasStr]
  show pyFloatStr (stripStr (String.mk (t.filter fun c => decide (c ≠ ',')))) = _
  rw [show (t.filter fun c => decide (c ≠ ',')) = t from hfilter]
  rw [stripStr]
  show pyFloatCore (stripWS (stripWS t)) = _
  rw [stripWS_token h, stripWS_token h]
  exact goodTok_eval h

theorem PyFloat.add_finite (a b : ℚ) :
    (PyFloat.finite a).add (.finite b) = .finite (a + b) := rfl

theorem PyFloat.mul_finite (a b : ℚ) :
    (PyFloat.finite a).mul (.finite b) = .finite (a * b) := rfl

theorem PyFloat.truthy_finite (q : ℚ) : (PyFloat.finite q).truthy = (q != 0) := rfl

theorem pyOr_none (d : PyFloat) : pyOr Option.none d = d := rfl

theorem pyOr_some (f d : PyFloat) : pyOr (some f) d = if f.truthy then f else d := rfl

theorem parse_number_eq_token (v : PyVal) (h : v ≠ .null) :
    parse_number v = (firstToken (pyStr v).data).map fun t => PyFloat.finite (tokenVal t) := by
  cases v with
  | null => exact absurd rfl h
  | str s =>
    cases hft : firstToken (pyStr (.str s)).data with
    | none =>
      show (match firstToken (pyStr (.str s)).data with
        | some t => normalize_number (.str (String.mk t))
        | Option.none => Option.none) = _
      rw [hft]
      rfl
    | some t =>
      show (match firstToken (pyStr (.str s)).data with
        | some t => normalize_number (.str (String.mk t))
        | Option.none => Option.none) = _
      rw [hft]
      show normalize_number (.str (String.mk t)) = _
      rw [normalize_token (firstToken_good _ t hft)]
      rfl
  | int i =>
    cases hft : firstToken (pyStr (.int i)).data with
    | none =>
      show (match firstToken (pyStr (.int i)).data with
        | some t => normalize_number (.str (String.mk t))
        | Option.none => Option.none) = _
      rw [hft]
      rfl
    | some t =>
      show (match firstToken (pyStr (.int i)).data with
        | some t => normalize_number (.str (String.mk t))
        | Option.none => Option.none) = _
      rw [hft]
      show normalize_number (.str (String.mk t)) = _
      rw [normalize_token (firstToken_good _ t hft)]
      rfl

theorem parse_number_finite {v : PyVal} {f : PyFloat} (h : parse_number v = some f) :
    ∃ q, f = .finite q ∧ 0 ≤ q := by
  cases v with
  | null => exact absurd h (by simp [parse_number])
  | str s =>
    rw [parse_number_eq_token (.str s) (fun he => PyVal.noConfusion he)] at h
    obtain ⟨t, _, hft⟩ := Option.map_eq_some'.mp h
    exact ⟨tokenVal t, hft.symm, tokenVal_nonneg t⟩
  | int i =>
    rw [parse_number_eq_token (.int i) (fun he => PyVal.noConfusion he)] at h
    obtain ⟨t, _, hft⟩ := Option.map_eq_some'.mp h
    exact ⟨tokenVal t, hft.symm, tokenVal_nonneg t⟩

theorem firstToken_none_iff :
    ∀ l : List Char, firstToken l = Option.none ↔ ∀ c ∈ l, isDig c = false := by
  intro l
  induction l with
  | nil => simp [firstToken]
  | cons c cs ih =>
    by_cases hc : isDig c = true
    · rw [firstToken, if_pos hc]
      constructor
      · intro h; exact absurd h (by simp)
      · intro h
        have := h c (List.mem_cons_self c cs)
        rw [hc] at this
        exact absurd this (by simp)
    · rw [firstToken, if_neg hc, ih]
      have hcf : isDig c = false := by simpa using hc
      constructor
      · intro h x hx
        rcases List.mem_cons.mp hx with rfl | hx2
        · exact hcf
        · exact h x hx2
      · intro h x hx
        exact h x (List.mem_cons_of_mem c hx)

theorem exists_token_iff (l : List Char) :
    (∃ pre mid post, l = pre ++ mid ++ post ∧ isNumToken mid = true) ↔
      ∃ c ∈ l, isDig c = true := by
  constructor
  · rintro ⟨pre, mid, post, rfl, hmid⟩
    have hds : mid.takeWhile isDig ≠ [] := by
      intro hnil
      rw [isNumToken] at hmid
      simp only [hnil] at hmid
      simp at hmid
    obtain ⟨d, rest, hdr⟩ := List.exists_cons_of_ne_nil hds
    have hd : isDig d = true :=
      List.mem_takeWhile_imp (by rw [hdr]; exact List.mem_cons_self _ _)
    have hdm : d ∈ mid := by
      have hmem : d ∈ mid.takeWhile isDig := by
        rw [hdr]; exact List.mem_cons_self _ _
      have hsplit := List.takeWhile_append_dropWhile (p := isDig) (l := mid)
      rw [← hsplit]
      exact List.mem_append_left _ hmem
    exact ⟨d, by simp [hdm], hd⟩
  · rintro ⟨c, hcl, hc⟩
    obtain ⟨pre, post, rfl⟩ := List.append_of_mem hcl
    refine ⟨pre, [c], post, by simp, ?_⟩
    have h1 : List.takeWhile isDig [c] = [c] := by
      rw [List.takeWhile_cons_of_pos hc]
      rfl
    have h2 : List.dropWhile isDig [c] = [] := by
      rw [List.dropWhile_cons_of_pos hc]
      rfl
    rw [isNumToken]
    simp only [h1, h2]
    simp

theorem processRow_name (r : Row) : (processRow r).item_name = r.item_name := rfl

theorem processRow_quantity (r : Row) :
    (processRow r).item_quantity = parse_number r.item_quantity := rfl

theorem processRow_rate (r : Row) :
    (processRow r).item_rate = parse_number r.item_rate := rfl

theorem processRow_amount (r : Row) :
    (processRow r).item_amount =
      match parse_number r.item_amount, parse_number r.item_quantity,
          parse_number r.item_rate with
      | Option.none, some q, some ra => some (q.mul ra)
      | a, _, _ => a := rfl

theorem parse_nonnegOpt (v : PyVal) : nonnegOpt (parse_number v) := by
  cases hp : parse_number v with
  | none => exact Or.inl rfl
  | some f =>
    obtain ⟨q, rfl, hq⟩ := parse_number_finite hp
    exact Or.inr ⟨q, rfl, hq⟩

theorem processRow_good (r : Row) : goodItem (processRow r) := by
  have hq := parse_nonnegOpt r.item_quantity
  have hr := parse_nonnegOpt r.item_rate
  have ha := parse_nonnegOpt r.item_amount
  refine ⟨processRow_quantity r ▸ hq, processRow_rate r ▸ hr, ?_, ?_⟩
  · rw [processRow_amount r]
    cases hpa : parse_number r.item_amount with
    | some a => rw [hpa] at ha; exact ha
    | none =>
      cases hpq : parse_number r.item_quantity with
      | none => exact Or.inl rfl
      | some qf =>
        cases hpr : parse_number r.item_rate with
        | none => exact Or.inl rfl
        | some rf =>
          rw [hpq] at hq
          rw [hpr] at hr
          rcases hq with hq0 | ⟨qv, hqe, hqv⟩
          · exact absurd hq0 (by simp)
          · rcases hr with hr0 | ⟨rv, hre, hrv⟩
            · exact absurd hr0 (by simp)
            · obtain rfl : qf = .finite qv := Option.some.inj hqe
              obtain rfl : rf = .finite rv := Option.some.inj hre
              exact Or.inr ⟨qv * rv, rfl, mul_nonneg hqv hrv⟩
  · rw [processRow_amount r, processRow_quantity r, processRow_rate r]
    cases hpa : parse_number r.item_amount with
    | some a => intro hcontra; exact absurd hcontra (by simp)
    | none =>
      cases hpq : parse_number r.item_quantity with
      | none => intro _; exact Or.inl rfl
      | some qf =>
        cases hpr : parse_number r.item_rate with
        | none => intro _; exact Or.inr rfl
        | some rf => intro hcontra; exact absurd hcontra (by simp)

theorem contrib_spec {it : Item} (h : goodItem it) :
    itemContribution it = .finite (specEffAmount it) ∧ 0 ≤ specEffAmount it := by
  obtain ⟨nm, qo, ro, ao⟩ := it
  obtain ⟨hq, hr, ha, himp⟩ := h
  cases ao with
  | some a =>
    rcases ha with hnone | ⟨qa, hsome, hqa⟩
    · exact absurd hnone (by simp)
    · obtain rfl : a = .finite qa := Option.some.inj hsome
      constructor
      · simp [itemContribution, specEffAmount, toQ]
      · simpa [specEffAmount, toQ] using hqa
  | none =>
    have hqr : qo = Option.none ∨ ro = Option.none := himp rfl
    rcases hq with hqn | ⟨qv, hqs, hqv⟩
    · subst hqn
      rcases hr with hrn | ⟨rv, hrs, hrv⟩
      · subst hrn
        constructor
        · simp [itemContribution, specEffAmount, specEffQty, specEffRate, pyOr_none,
            PyFloat.mul_finite, toQ]
        · simp [specEffAmount, specEffQty, specEffRate]
      · obtain rfl : ro = some (.finite rv) := hrs
        by_cases hrv0 : rv = 0
        · subst hrv0
          constructor
          · simp [itemContribution, specEffAmount, specEffQty, specEffRate, pyOr_none,
              pyOr_some, PyFloat.truthy_finite, PyFloat.mul_finite, toQ]
          · simp [specEffAmount, specEffQty, specEffRate, toQ]
        · constructor
          · have htr : ((rv : ℚ) != 0) = true := by simpa using hrv0
            simp [itemContribution, specEffAmount, specEffQty, specEffRate, pyOr_none,
              pyOr_some, PyFloat.truthy_finite, PyFloat.mul_finite, toQ, htr]
          · simp only [specEffAmount, specEffQty, specEffRate, toQ, one_mul]
            exact hrv
    · obtain rfl : qo = some (.finite qv) := hqs
      rcases hqr with h1 | h1
      · exact absurd h1 (by simp)
      · subst h1
        by_cases hqv0 : qv = 0
        · subst hqv0
          constructor
          · simp [itemContribution, specEffAmount, specEffQty, specEffRate, pyOr_none,
              pyOr_some, PyFloat.truthy_finite, PyFloat.mul_finite, toQ]
          · simp [specEffAmount, specEffQty, specEffRate, toQ]
        · constructor
          · have htq : ((qv : ℚ) != 0) = true := by simpa using hqv0
            simp [itemContribution, specEffAmount, specEffQty, specEffRate, pyOr_none,
              pyOr_some, PyFloat.truthy_finite, PyFloat.mul_finite, toQ, htq]
          · simp [specEffAmount, specEffQty, specEffRate, toQ]

theorem fold_spec :
    ∀ (l : List Item) (s : ℚ), (∀ it ∈ l, goodItem it) →
      l.foldl (fun acc it => PyFloat.add acc (itemContribution it)) (.finite s) =
        .finite (s + (l.map specEffAmount).sum) := by
  intro l
  induction l with
  | nil => intro s _; simp
  | cons it tl ih =>
    intro s h
    have hit := contrib_spec (h it (List.mem_cons_self it tl))
    rw [List.foldl_cons, hit.1, PyFloat.add_finite]
    rw [ih (s + specEffAmount it) fun x hx => h x (List.mem_cons_of_mem it hx)]
    rw [List.map_cons, List.sum_cons, add_assoc]

theorem buildPages_length :
    ∀ (ps : List (Option (List Row))) (s : Nat), (buildPages s ps).length = ps.length := by
  intro ps
  induction ps with
  | nil => intro s; rfl
  | cons p pt ih => intro s; simp [buildPages, ih]

theorem buildPages_page_no :
    ∀ (ps : List (Option (List Row))) (s : Nat),
      (buildPages s ps).map PageRes.page_no = List.range' s ps.length := by
  intro ps
  induction ps with
  | nil => intro s; rfl
  | cons p pt ih =>
    intro s
    rw [buildPages, List.map_cons, ih (s + 1)]
    rw [List.length_cons, List.range'_succ]

theorem buildPages_getD :
    ∀ (ps : List (Option (List Row))) (s i : Nat), i < ps.length →
      (buildPages s ps).getD i ⟨0, []⟩ =
        ⟨s + i, ((ps.getD i Option.none).getD []).map processRow⟩ := by
  intro ps
  induction ps with
  | nil => intro s i h; exact absurd h (by simp)
  | cons p pt ih =>
    intro s i h
    cases i with
    | zero => simp [buildPages]
    | succ j =>
      rw [buildPages]
      rw [List.getD_cons_succ, List.getD_cons_succ]
      rw [ih (s + 1) j (by simpa using h)]
      have harith : s + 1 + j = s + (j + 1) := by omega
      rw [harith]

theorem mem_buildPages :
    ∀ (ps : List (Option (List Row))) (s : Nat) (pg : PageRes), pg ∈ buildPages s ps →
      ∃ rows : List Row, pg.bill_items = rows.map processRow := by
  intro ps
  induction ps with
  | nil => intro s pg h; exact absurd h (by simp [buildPages])
  | cons p pt ih =>
    intro s pg h
    rw [buildPages] at h
    rcases List.mem_cons.mp h with rfl | h2
    · exact ⟨p.getD [], rfl⟩
    · exact ih (s + 1) pg h2

theorem process_document_pagewise (pages : List (Option (List Row))) :
    (process_document pages).data.pagewise_line_items = buildPages 1 pages := rfl

theorem process_document_count (pages : List (Option (List Row))) :
    (process_document pages).data.total_item_count =
      ((buildPages 1 pages).map PageRes.bill_items).flatten.length := rfl

theorem process_document_success (pages : List (Option (List Row))) :
    (process_document pages).is_success = true := rfl

theorem process_document_reconciled (pages : List (Option (List Row))) :
    (process_document pages).data.reconciled_amount =
      PyFloat.round2 (((buildPages 1 pages).map PageRes.bill_items).flatten.foldl
        (fun acc it => PyFloat.add acc (itemContribution it)) (.finite 0)) := rfl

theorem docItems_eq (pages : List (Option (List Row))) :
    docItems pages = ((buildPages 1 pages).map PageRes.bill_items).flatten := rfl

theorem mem_docItems_processRow {pages : List (Option (List Row))} {it : Item}
    (h : it ∈ docItems pages) : ∃ r, it = processRow r := by
  rw [docItems_eq, List.mem_flatten] at h
  obtain ⟨l, hl, hit⟩ := h
  obtain ⟨pg, hpg, rfl⟩ := List.mem_map.mp hl
  obtain ⟨rows, hrows⟩ := mem_buildPages pages 1 pg hpg
  rw [hrows] at hit
  obtain ⟨r, _, rfl⟩ := List.mem_map.mp hit
  exact ⟨r, rfl⟩

theorem docItems_good {pages : List (Option (List Row))} :
    ∀ it ∈ docItems pages, goodItem it := by
  intro it hit
  obtain ⟨r, rfl⟩ := mem_docItems_processRow hit
  exact processRow_good r

theorem bankRound_nonneg {x : ℚ} (h : 0 ≤ x) : 0 ≤ bankRound x := by
  have hf : (0 : ℤ) ≤ ⌊x⌋ := Int.floor_nonneg.mpr h
  show (0 : ℤ) ≤
    if x - (⌊x⌋ : ℚ) < 1 / 2 then ⌊x⌋
    else if (1 : ℚ) / 2 < x - (⌊x⌋ : ℚ) then ⌊x⌋ + 1
    else if ⌊x⌋ % 2 = 0 then ⌊x⌋ else ⌊x⌋ + 1
  split_ifs <;> omega

theorem round2_nonneg {q : ℚ} (h : 0 ≤ q) : 0 ≤ round2 q := by
  unfold round2
  apply div_nonneg _ (by norm_num)
  have h1 : (0 : ℤ) ≤ bankRound (q * 100) := bankRound_nonneg (by positivity)
  exact_mod_cast h1

/- ------------------------------------------------------------------ -/
/- Claim theorems.                                                     -/
/- ------------------------------------------------------------------ -/

/-- C1: for every processed document, reconciled_amount equals the sum, over
all emitted items of all pages, of each item's effective amount — its amount
when present, otherwise effective quantity (quantity, default 1) times
effective rate (rate, default 0) — rounded to 2 decimal places. -/
theorem C1_reconciled_amount_spec (pages : List (Option (List Row))) :
    (process_document pages).data.reconciled_amount =
      .finite (round2 ((docItems pages).map specEffAmount).sum) := by
  rw [process_document_reconciled, ← docItems_eq]
  rw [fold_spec (docItems pages) 0 docItems_good, zero_add]
  rfl

/-- C5: total_item_count equals the sum of the lengths of bill_items across
all pages of pagewise_line_items, for any number of pages. -/
theorem C5_total_item_count_spec (pages : List (Option (List Row))) :
    (process_document pages).data.total_item_count =
      ((process_document pages).data.pagewise_line_items.map
        (fun p => p.bill_items.length)).sum := by
  rw [process_document_count, process_document_pagewise, List.length_flatten,
    List.map_map]
  rfl

/-- C9: the page_no values of pagewise_line_items are exactly 1..N in order,
where N is the number of pages. -/
theorem C9_page_no_spec (pages : List (Option (List Row))) :
    (process_document pages).data.pagewise_line_items.map PageRes.page_no =
      List.range' 1 pages.length := by
  rw [process_document_pagewise]
  exact buildPages_page_no pages 1

/-- C3: after normalizing quantity, rate and amount independently, the emitted
amount is quantity times rate when the normalized amount is absent and both
quantity and rate are present, and exactly the normalized amount (possibly
null) otherwise; the row (quantity 3, rate 10, amount null) yields 30. -/
theorem C3_row_amount_spec :
    (∀ r : Row, (processRow r).item_amount =
      match parse_number r.item_amount, parse_number r.item_quantity,
          parse_number r.item_rate with
      | Option.none, some q, some ra => some (q.mul ra)
      | a, _, _ => a) ∧
    (∀ (r : Row) (q ra : ℚ), parse_number r.item_amount = Option.none →
      parse_number r.item_quantity = some (.finite q) →
      parse_number r.item_rate = some (.finite ra) →
      (processRow r).item_amount = some (.finite (q * ra))) ∧
    (∀ r : Row, parse_number r.item_amount ≠ Option.none →
      (processRow r).item_amount = parse_number r.item_amount) ∧
    (∀ r : Row, parse_number r.item_amount = Option.none →
      parse_number r.item_quantity = Option.none ∨
        parse_number r.item_rate = Option.none →
      (processRow r).item_amount = Option.none) ∧
    (processRow ⟨PyVal.null, PyVal.int 3, PyVal.int 10, PyVal.null⟩).item_amount =
      some (.finite 30) := by
  have hex : (processRow ⟨PyVal.null, PyVal.int 3, PyVal.int 10, PyVal.null⟩).item_amount =
      some (.finite 30) := by
    rw [processRow_amount]
    have h3 : parse_number (PyVal.int 3) = some (PyFloat.finite 3) := by decide
    have h10 : parse_number (PyVal.int 10) = some (PyFloat.finite 10) := by decide
    rw [h3, h10]
    show some ((PyFloat.finite 3).mul (PyFloat.finite 10)) = _
    rw [PyFloat.mul_finite]
    norm_num
  refine ⟨fun r => processRow_amount r, ?_, ?_, ?_, hex⟩
  · intro r q ra hA hQ hR
    rw [processRow_amount, hA, hQ, hR]
    rfl
  · intro r hA
    rw [processRow_amount]
    cases hpa : parse_number r.item_amount with
    | none => exact absurd hpa hA
    | some a =>
      cases parse_number r.item_quantity <;> cases parse_number r.item_rate <;> rfl
  · intro r hA hOr
    rw [processRow_amount, hA]
    rcases hOr with h1 | h1
    · rw [h1]
    · rw [h1]
      cases parse_number r.item_quantity <;> rfl

/-- Witness for C3 at the concrete row (quantity 3, rate 10, amount null). -/
theorem C3_row_amount_spec_w :
    parse_number PyVal.null = Option.none ∧
    parse_number (PyVal.int 3) = some (PyFloat.finite 3) ∧
    parse_number (PyVal.int 10) = some (PyFloat.finite 10) ∧
    (processRow ⟨PyVal.null, PyVal.int 3, PyVal.int 10, PyVal.null⟩).item_amount =
      some (PyFloat.finite 30) := by
  refine ⟨by decide, by decide, by decide, ?_⟩
  have h := C3_row_amount_spec.2.1 ⟨PyVal.null, PyVal.int 3, PyVal.int 10, PyVal.null⟩
    3 10 (by decide) (by decide) (by decide)
  have h30 : (3 : ℚ) * 10 = 30 := by norm_num
  rw [h30] at h
  exact h

/-- C4: a page whose structured extraction failed (outcome none) appears in
the response with an empty bill_items list, the page list keeps one entry per
page, and the whole request still succeeds with is_success true. -/
theorem C4_failed_page_empty (pages : List (Option (List Row))) (i : Nat)
    (h : i < pages.length) (hfail : pages.getD i Option.none = Option.none) :
    (process_document pages).data.pagewise_line_items.length = pages.length ∧
    ((process_document pages).data.pagewise_line_items.getD i ⟨0, []⟩).bill_items = [] ∧
    (process_document pages).is_success = true := by
  refine ⟨by rw [process_document_pagewise]; exact buildPages_length pages 1, ?_, rfl⟩
  rw [process_document_pagewise]
  rw [buildPages_getD pages 1 i h]
  rw [hfail]
  rfl

/-- Witness for C4: a one-page document whose only page failed extraction. -/
theorem C4_failed_page_empty_w :
    0 < ([Option.none] : List (Option (List Row))).length ∧
    (([Option.none] : List (Option (List Row))).getD 0 Option.none = Option.none) ∧
    ((process_document [Option.none]).data.pagewise_line_items.length = 1 ∧
      ((process_document [Option.none]).data.pagewise_line_items.getD 0
        ⟨0, []⟩).bill_items = [] ∧
      (process_document [Option.none]).is_success = true) := by
  refine ⟨by decide, rfl, ?_⟩
  exact C4_failed_page_empty [Option.none] 0 (by decide) rfl

/-- C6: normalize returns null on null input; otherwise it strips commas and
surrounding whitespace from the string form and attempts a direct float
parse, returning the parsed value on success and null on failure; it is a
total function (never raises). -/
theorem C6_normalize_spec :
    normalize_number PyVal.null = Option.none ∧
    (∀ s : String, normalize_number (.str s) =
      pyFloatStr (stripStr (removeCommasStr s))) ∧
    (∀ i : Int, normalize_number (.int i) =
      pyFloatStr (stripStr (removeCommasStr (toString i)))) ∧
    (∀ v : PyVal, normalize_number v = Option.none ∨
      ∃ f, normalize_number v = some f) ∧
    normalize_number (.str commaNumStr) = some (.finite 1234) ∧
    normalize_number (.str junkStr) = Option.none ∧
    normalize_number (.int 7) = some (.finite 7) := by
  refine ⟨rfl, fun s => rfl, fun i => rfl, ?_, by decide, by decide, by decide⟩
  intro v
  cases hn : normalize_number v with
  | none => exact Or.inl rfl
  | some f => exact Or.inr ⟨f, rfl⟩

/-- C7: parse returns null exactly when the input is null or its string form
contains no substring matching digits[.digits]; whenever such a substring
exists, parse returns a number. -/
theorem C7_parse_null_iff :
    (∀ v : PyVal, parse_number v = Option.none ↔
      (v = PyVal.null ∨
        ¬ ∃ pre mid post, (pyStr v).data = pre ++ mid ++ post ∧
          isNumToken mid = true)) ∧
    parse_number PyVal.null = Option.none ∧
    parse_number (.str abcStr) = Option.none ∧
    (∀ v : PyVal,
      (∃ pre mid post, (pyStr v).data = pre ++ mid ++ post ∧ isNumToken mid = true) →
      ∃ f, parse_number v = some f) := by
  have hmain : ∀ v : PyVal, parse_number v = Option.none ↔
      (v = PyVal.null ∨
        ¬ ∃ pre mid post, (pyStr v).data = pre ++ mid ++ post ∧
          isNumToken mid = true) := by
    intro v
    by_cases hv : v = PyVal.null
    · subst hv
      constructor
      · intro _; exact Or.inl rfl
      · intro _; rfl
    · rw [parse_number_eq_token v hv, Option.map_eq_none', firstToken_none_iff]
      constructor
      · intro hall
        refine Or.inr ?_
        intro hex
        obtain ⟨c, hc, hdig⟩ := (exists_token_iff _).mp hex
        rw [hall c hc] at hdig
        exact absurd hdig (by simp)
      · intro hor c hc
        rcases hor with h1 | h2
        · exact absurd h1 hv
        · by_contra hne
          have hdig : isDig c = true := by simpa using hne
          exact h2 ((exists_token_iff _).mpr ⟨c, hc, hdig⟩)
  refine ⟨hmain, rfl, by decide, ?_⟩
  intro v hex
  cases hpn : parse_number v with
  | none =>
    exfalso
    rcases (hmain v).mp hpn with h1 | h2
    · subst h1
      obtain ⟨c, hc, hdig⟩ := (exists_token_iff _).mp hex
      have hnd : ∀ x ∈ (pyStr PyVal.null).data, isDig x = false := by decide
      rw [hnd c hc] at hdig
      exact absurd hdig (by simp)
    · exact h2 hex
  | some f => exact ⟨f, rfl⟩

/-- Witness for C7: "abc" falls in the null case via the iff, and "a1b"
contains the matching substring "1", so parse returns a number. -/
theorem C7_parse_null_iff_w :
    (PyVal.str abcStr = PyVal.null ∨
      ¬ ∃ pre mid post, (pyStr (PyVal.str abcStr)).data = pre ++ mid ++ post ∧
        isNumToken mid = true) ∧
    ∃ f, parse_number (PyVal.str a1bStr) = some f := by
  constructor
  · exact (C7_parse_null_iff.1 (PyVal.str abcStr)).mp (by decide)
  · exact C7_parse_null_iff.2.2.2 (PyVal.str a1bStr)
      ⟨['a'], ['1'], ['b'], by decide, by decide⟩

/-- C10: parse never returns a negative number (the token pattern is
unsigned); every emitted field is null or a nonnegative finite value, and the
reconciled amount is a nonnegative finite value. -/
theorem C10_nonneg_spec :
    (∀ (v : PyVal) (f : PyFloat), parse_number v = some f →
      ∃ q, f = .finite q ∧ 0 ≤ q) ∧
    parse_number (.str negStr) = some (.finite 5) ∧
    parse_number (.int (-5)) = some (.finite 5) ∧
    (∀ (pages : List (Option (List Row))) (pg : PageRes) (it : Item),
      pg ∈ (process_document pages).data.pagewise_line_items →
      it ∈ pg.bill_items →
      nonnegOpt it.item_quantity ∧ nonnegOpt it.item_rate ∧
        nonnegOpt it.item_amount) ∧
    (∀ pages : List (Option (List Row)),
      ∃ q, (process_document pages).data.reconciled_amount = .finite q ∧ 0 ≤ q) := by
  refine ⟨fun v f h => parse_number_finite h, by decide, by decide, ?_, ?_⟩
  · intro pages pg it hpg hit
    have hmem : it ∈ docItems pages := by
      rw [docItems_eq, List.mem_flatten]
      rw [process_document_pagewise] at hpg
      exact ⟨pg.bill_items, List.mem_map.mpr ⟨pg, hpg, rfl⟩, hit⟩
    obtain ⟨r, rfl⟩ := mem_docItems_processRow hmem
    obtain ⟨h1, h2, h3, _⟩ := processRow_good r
    exact ⟨h1, h2, h3⟩
  · intro pages
    refine ⟨round2 ((docItems pages).map specEffAmount).sum, ?_, ?_⟩
    · rw [process_document_reconciled, ← docItems_eq,
        fold_spec (docItems pages) 0 docItems_good, zero_add]
      rfl
    · apply round2_nonneg
      apply List.sum_nonneg
      intro x hx
      obtain ⟨it, hit, rfl⟩ := List.mem_map.mp hx
      exact (contrib_spec (docItems_good it hit)).2

/-- Witness for C10 at the concrete input "7". -/
theorem C10_nonneg_spec_w :
    parse_number (.str sevenStr) = some (PyFloat.finite 7) ∧
    ∃ q, PyFloat.finite 7 = PyFloat.finite q ∧ 0 ≤ q := by
  refine ⟨by decide, ?_⟩
  exact C10_nonneg_spec.1 (.str sevenStr) (PyFloat.finite 7) (by decide)

/-- C2 counterexample: on "Qty: 1,234.50 pcs" the regex token stops at the
comma, so parse returns 1 rather than the claimed 1234.5 (= 2469/2). -/
theorem C2_parse_comma_counterexample :
    parse_number (.str commaQtyStr) = some (PyFloat.finite 1) ∧
    parse_number (.str commaQtyStr) ≠ some (PyFloat.finite (2469 / 2)) := by
  have h1 : parse_number (.str commaQtyStr) = some (PyFloat.finite 1) := by decide
  refine ⟨h1, ?_⟩
  rw [h1]
  intro h
  have h2 : (1 : ℚ) = 2469 / 2 := PyFloat.finite.inj (Option.some.inj h)
  norm_num at h2

/-- C2 (amended): parse returns the numeric value of the first substring
matching digits[.digits]; a comma ends the token rather than being removed,
so parse("Qty: 1,234.50 pcs") returns 1. -/
theorem C2_parse_first_token_amended :
    (∀ s : String, parse_number (.str s) =
      (firstToken s.data).map fun t => PyFloat.finite (tokenVal t)) ∧
    parse_number (.str commaQtyStr) = some (PyFloat.finite 1) := by
  exact ⟨fun s => parse_number_eq_token (.str s) (fun he => PyVal.noConfusion he),
    by decide⟩

/-- C8: the endpoint answers 400 with body (is_success false, error message)
exactly when the request body is missing the document field or the download
fails; in those cases the response does not depend on the processing
pipeline; otherwise it answers 200. -/
theorem C8_endpoint_400_spec {β : Type} (body : Option (List (String × PyVal)))
    (dl : PyVal → Except Unit β) (proc proc2 : β → String → DocResult) :
    ((extract_bill_data body dl proc).1 = 400 ∨
      (extract_bill_data body dl proc).1 = 200) ∧
    ((extract_bill_data body dl proc).1 = 400 ↔
      missingDocument body ∨ downloadFails body dl) ∧
    ((extract_bill_data body dl proc).1 = 400 →
      (∃ msg, (extract_bill_data body dl proc).2 = HttpBody.errBody false msg) ∧
      extract_bill_data body dl proc = extract_bill_data body dl proc2) := by
  cases body with
  | none =>
    refine ⟨Or.inl rfl, ⟨fun _ => Or.inl (Or.inl rfl), fun _ => rfl⟩, ?_⟩
    intro _
    exact ⟨⟨msgMissingDoc, rfl⟩, rfl⟩
  | some b =>
    by_cases hb : b = []
    · subst hb
      have he : ∀ pr : β → String → DocResult,
          extract_bill_data (some []) dl pr = (400, .errBody false msgMissingDoc) := by
        intro pr
        simp [extract_bill_data]
      refine ⟨Or.inl (by rw [he]), ⟨fun _ => Or.inl (Or.inr (Or.inl rfl)),
        fun _ => by rw [he]⟩, ?_⟩
      intro _
      exact ⟨⟨msgMissingDoc, by rw [he]⟩, by rw [he, he]⟩
    · cases hlk : lookupKey docKey b with
      | none =>
        have he : ∀ pr : β → String → DocResult,
            extract_bill_data (some b) dl pr = (400, .errBody false msgMissingDoc) := by
          intro pr
          simp [extract_bill_data, hb, hlk]
        refine ⟨Or.inl (by rw [he]),
          ⟨fun _ => Or.inl (Or.inr (Or.inr ⟨b, rfl, hlk⟩)), fun _ => by rw [he]⟩, ?_⟩
        intro _
        exact ⟨⟨msgMissingDoc, by rw [he]⟩, by rw [he, he]⟩
      | some url =>
        cases hdl : dl url with
        | error e =>
          have he : ∀ pr : β → String → DocResult,
              extract_bill_data (some b) dl pr =
                (400, .errBody false msgDownloadFailed) := by
            intro pr
            simp [extract_bill_data, hb, hlk, hdl]
          refine ⟨Or.inl (by rw [he]),
            ⟨fun _ => Or.inr ⟨b, url, rfl, hb, hlk, e, hdl⟩, fun _ => by rw [he]⟩, ?_⟩
          intro _
          exact ⟨⟨msgDownloadFailed, by rw [he]⟩, by rw [he, he]⟩
        | ok content =>
          have he : ∀ pr : β → String → DocResult,
              extract_bill_data (some b) dl pr =
                (200, .docBody (pr content (extOf (pyStr url)))) := by
            intro pr
            simp [extract_bill_data, hb, hlk, hdl]
          refine ⟨Or.inr (by rw [he]), ⟨?_, ?_⟩, ?_⟩
          · intro h400
            rw [he] at h400
            simp at h400
          · intro hor
            exfalso
            rcases hor with hmiss | hdf
            · rcases hmiss with h1 | h1 | ⟨b2, hb2, hlk2⟩
              · exact Option.noConfusion h1
              · injection h1 with hbe
                exact hb hbe
              · injection hb2 with hbe
                subst hbe
                rw [hlk] at hlk2
                exact Option.noConfusion hlk2
            · obtain ⟨b2, url2, hb2, _, hlk2, e, hdl2⟩ := hdf
              injection hb2 with hbe
              subst hbe
              rw [hlk] at hlk2
              injection hlk2 with hurl
              subst hurl
              rw [hdl] at hdl2
              exact Except.noConfusion hdl2
          · intro h400
            rw [he] at h400
            simp at h400

/-- Witness for C8: a request with no JSON body is answered 400. -/
theorem C8_endpoint_400_spec_w :
    (extract_bill_data Option.none (fun _ => (Except.error () : Except Unit Unit))
      (fun _ _ => process_document [])).1 = 400 := by
  exact ((C8_endpoint_400_spec Option.none
    (fun _ => (Except.error () : Except Unit Unit))
    (fun _ _ => process_document []) (fun _ _ => process_document [])).2.1).mpr
    (Or.inl (Or.inl rfl))

end Bill
